import Mathlib

/-!
Verification of the `fileure` repository (mount.py, unmount.py,
utils/encrypt.py, utils/decrypt.py).

Modelling conventions:
* a Python `str` is a `List Nat` of Unicode code points;
* a Python `bytes` / `bytearray` is a `List Nat` whose members are below 256;
* fallible Python operations (those that can raise) return `Option`;
* external collaborators (the filesystem, `filedate`, `uuid4`) are modelled
  as explicit inputs: the directory tree is a `FSEntry` value, the per-entry
  success of the two filesystem effects of the unmount loop is carried by
  boolean fields, and the random key segment is a parameter.
-/

/-- Model of Python `str.split(sep)` for a one-character separator
(`filename.split("-")` in unmount.py, `fname.split(".")` in mount.py). -/
def pySplit (sep : Nat) : List Nat → List (List Nat)
  | [] => [[]]
  | c :: rest =>
    if c = sep then [] :: pySplit sep rest
    else
      match pySplit sep rest with
      | [] => [[c]]
      | s :: ss => (c :: s) :: ss

/-- Model of Python `str.lower()` restricted to the ASCII range, which is the
only range the theorems below apply it to (`.lower()` in mount.py line 144). -/
def pyLower (s : List Nat) : List Nat :=
  s.map (fun c => if 65 ≤ c ∧ c ≤ 90 then c + 32 else c)

/-- The hexadecimal digit (as a code point) emitted by Python's
`bytes.hex()` for a nibble value below 16. -/
def hexDigitChar (n : Nat) : Nat := if n < 10 then 48 + n else 87 + n

/-- Model of Python `bytes.hex()`: two lowercase hex digits per byte. -/
def bytesToHex : List Nat → List Nat
  | [] => []
  | b :: bs => hexDigitChar (b / 16) :: hexDigitChar (b % 16) :: bytesToHex bs

/-- Value of a hexadecimal digit code point, `none` for a non-hex character. -/
def hexDigitVal (c : Nat) : Option Nat :=
  if 48 ≤ c ∧ c ≤ 57 then some (c - 48)
  else if 97 ≤ c ∧ c ≤ 102 then some (c - 87)
  else if 65 ≤ c ∧ c ≤ 70 then some (c - 55)
  else none

/-- Model of Python `bytearray.fromhex` / `bytes.fromhex` on the strings this
program produces (no embedded spaces): pairs of hex digits; an odd length or a
non-hex character raises `ValueError`, modelled as `none`. -/
def hexToBytes : List Nat → Option (List Nat)
  | [] => some []
  | [_] => none
  | c1 :: c2 :: rest =>
    match hexDigitVal c1, hexDigitVal c2, hexToBytes rest with
    | some h, some l, some bs => some ((16 * h + l) :: bs)
    | _, _, _ => none

/-- UTF-8 encoding of one code point (the code points fed to it by this
development are below 0x110000, as in Python). -/
def utf8EncodeChar (c : Nat) : List Nat :=
  if c < 128 then [c]
  else if c < 2048 then [192 + c / 64, 128 + c % 64]
  else if c < 65536 then [224 + c / 4096, 128 + c / 64 % 64, 128 + c % 64]
  else [240 + c / 262144, 128 + c / 4096 % 64, 128 + c / 64 % 64, 128 + c % 64]

/-- Model of Python `str.encode()` (UTF-8). -/
def utf8Encode (s : List Nat) : List Nat := (s.map utf8EncodeChar).flatten

/-- Whether a byte is a UTF-8 continuation byte. -/
def isUtf8Cont (b : Nat) : Bool := 128 ≤ b && b < 192

/-- Recursion core of the UTF-8 decoder. The fuel argument only bounds the
recursion depth: every step consumes at least one byte, so fuel equal to the
input length (as supplied by `utf8Decode`) never runs out. -/
def utf8DecodeAux : Nat → List Nat → Option (List Nat)
  | _, [] => some []
  | 0, _ :: _ => none
  | fuel + 1, b :: rest =>
    if b < 128 then (utf8DecodeAux fuel rest).map (fun s => b :: s)
    else if 194 ≤ b && b ≤ 223 then
      match rest with
      | b2 :: rest2 =>
        if isUtf8Cont b2 then
          (utf8DecodeAux fuel rest2).map (fun s => ((b - 192) * 64 + (b2 - 128)) :: s)
        else none
      | [] => none
    else if 224 ≤ b && b ≤ 239 then
      match rest with
      | b2 :: b3 :: rest3 =>
        if (if b = 224 then decide (160 ≤ b2 && b2 ≤ 191 : Bool)
            else if b = 237 then decide (128 ≤ b2 && b2 ≤ 159 : Bool)
            else isUtf8Cont b2) && isUtf8Cont b3 then
          (utf8DecodeAux fuel rest3).map
            (fun s => ((b - 224) * 4096 + (b2 - 128) * 64 + (b3 - 128)) :: s)
        else none
      | _ => none
    else if 240 ≤ b && b ≤ 244 then
      match rest with
      | b2 :: b3 :: b4 :: rest4 =>
        if (if b = 240 then decide (144 ≤ b2 && b2 ≤ 191 : Bool)
            else if b = 244 then decide (128 ≤ b2 && b2 ≤ 143 : Bool)
            else isUtf8Cont b2) && isUtf8Cont b3 && isUtf8Cont b4 then
          (utf8DecodeAux fuel rest4).map
            (fun s =>
              ((b - 240) * 262144 + (b2 - 128) * 4096 + (b3 - 128) * 64 + (b4 - 128)) :: s)
        else none
      | _ => none
    else none

/-- Model of Python `bytes.decode("utf8")` (strict): `none` models the
`UnicodeDecodeError` raised on malformed input. -/
def utf8Decode (bs : List Nat) : Option (List Nat) := utf8DecodeAux bs.length bs

/-- Decimal digit string of a natural number, as code points
(model of Python `str(n)` for `n ≥ 0`). -/
def natToDecimal (n : Nat) : List Nat :=
  if n < 10 then [48 + n]
  else natToDecimal (n / 10) ++ [48 + n % 10]
termination_by n
decreasing_by exact Nat.div_lt_self (by omega) (by omega)

/-- Model of Python `str(i)` for an integer. -/
def intToDecimal (i : Int) : List Nat :=
  if i < 0 then 45 :: natToDecimal (-i).toNat else natToDecimal i.toNat

/-- Accumulating decimal parser over digit code points. -/
def parseDigitsAux (acc : Nat) : List Nat → Option Nat
  | [] => some acc
  | c :: cs => if 48 ≤ c ∧ c ≤ 57 then parseDigitsAux (acc * 10 + (c - 48)) cs else none

/-- Nonempty run of decimal digits, else `none`. -/
def parseDigits : List Nat → Option Nat
  | [] => none
  | c :: cs => parseDigitsAux 0 (c :: cs)

/-- Model of Python `int(s)` on the canonical strings produced by `str` on an
integer: an optional sign followed by decimal digits (`none` models the
`ValueError` raised on anything unparsable). -/
def pyIntParse (s : List Nat) : Option Int :=
  match s with
  | 45 :: rest => (parseDigits rest).map (fun (n : Nat) => -(n : Int))
  | 43 :: rest => (parseDigits rest).map (fun (n : Nat) => (n : Int))
  | _ => (parseDigits s).map (fun (n : Nat) => (n : Int))

/-! SHA-256 (FIPS 180-4), the hash `hashlib.sha256` used by both
`utils/encrypt.py` and `utils/decrypt.py` for key derivation. Words are
naturals reduced modulo `2 ^ 32`; the round and initialisation constants are
derived from the cube and square roots of the first primes, as in the
standard. -/

/-- Reduce a natural modulo `2 ^ 32`. -/
def w32 (n : Nat) : Nat := n % 4294967296

/-- Right rotation of a 32-bit word. -/
def rotr32 (k x : Nat) : Nat := (x >>> k) ||| w32 (x <<< (32 - k))

/-- SHA-256 choice function. -/
def sha256Ch (e f g : Nat) : Nat := (e &&& f) ^^^ ((e ^^^ 4294967295) &&& g)

/-- SHA-256 majority function. -/
def sha256Maj (a b c : Nat) : Nat := (a &&& b) ^^^ (a &&& c) ^^^ (b &&& c)

/-- SHA-256 big sigma 0. -/
def bigSigma0 (x : Nat) : Nat := rotr32 2 x ^^^ rotr32 13 x ^^^ rotr32 22 x

/-- SHA-256 big sigma 1. -/
def bigSigma1 (x : Nat) : Nat := rotr32 6 x ^^^ rotr32 11 x ^^^ rotr32 25 x

/-- SHA-256 small sigma 0. -/
def smallSigma0 (x : Nat) : Nat := rotr32 7 x ^^^ rotr32 18 x ^^^ (x >>> 3)

/-- SHA-256 small sigma 1. -/
def smallSigma1 (x : Nat) : Nat := rotr32 17 x ^^^ rotr32 19 x ^^^ (x >>> 10)

/-- Binary-search step for the integer cube root. -/
def icbrtAux (n : Nat) : Nat → Nat → Nat
  | 0, r => r
  | k + 1, r =>
    let c := r + 2 ^ k
    if c * c * c ≤ n then icbrtAux n k c else icbrtAux n k r

/-- Integer cube root for arguments below `2 ^ 120`. -/
def icbrt (n : Nat) : Nat := icbrtAux n 40 0

/-- First 32 bits of the fractional part of the cube root of `p`. -/
def fracCbrtWord (p : Nat) : Nat := icbrt (p * 2 ^ 96) % 4294967296

/-- First 32 bits of the fractional part of the square root of `p`. -/
def fracSqrtWord (p : Nat) : Nat := Nat.sqrt (p * 2 ^ 64) % 4294967296

/-- The first 64 primes, sources of the SHA-256 round constants. -/
def sha256Primes : List Nat :=
  [2, 3, 5, 7, 11, 13, 17, 19, 23, 29, 31, 37, 41, 43, 47, 53,
   59, 61, 67, 71, 73, 79, 83, 89, 97, 101, 103, 107, 109, 113, 127, 131,
   137, 139, 149, 151, 157, 163, 167, 173, 179, 181, 191, 193, 197, 199, 211, 223,
   227, 229, 233, 239, 241, 251, 257, 263, 269, 271, 277, 281, 283, 293, 307, 311]

/-- The 64 SHA-256 round constants. -/
def sha256K : List Nat := sha256Primes.map fracCbrtWord

/-- Eight-word SHA-256 state. -/
abbrev H8 := Nat × Nat × Nat × Nat × Nat × Nat × Nat × Nat

/-- The SHA-256 initial hash value. -/
def sha256H0 : H8 :=
  (fracSqrtWord 2, fracSqrtWord 3, fracSqrtWord 5, fracSqrtWord 7,
   fracSqrtWord 11, fracSqrtWord 13, fracSqrtWord 17, fracSqrtWord 19)

/-- Big-endian 8-byte encoding of a 64-bit length. -/
def lenBytes64 (n : Nat) : List Nat :=
  [n / 2 ^ 56 % 256, n / 2 ^ 48 % 256, n / 2 ^ 40 % 256, n / 2 ^ 32 % 256,
   n / 2 ^ 24 % 256, n / 2 ^ 16 % 256, n / 2 ^ 8 % 256, n % 256]

/-- SHA-256 message padding to a multiple of 64 bytes. -/
def sha256Pad (msg : List Nat) : List Nat :=
  msg ++ 128 :: (List.replicate ((64 - (msg.length + 9) % 64) % 64) 0
    ++ lenBytes64 (8 * msg.length))

/-- Big-endian grouping of bytes into 32-bit words. -/
def bytesToWords : List Nat → List Nat
  | b1 :: b2 :: b3 :: b4 :: rest =>
    (((b1 * 256 + b2) * 256 + b3) * 256 + b4) :: bytesToWords rest
  | _ => []

/-- Split a word list into 16-word blocks. -/
def chunkWords (ws : List Nat) : List (List Nat) :=
  if h : ws = [] then [] else ws.take 16 :: chunkWords (ws.drop 16)
termination_by ws.length
decreasing_by
  simp only [List.length_drop]
  have : 0 < ws.length := List.length_pos.mpr h
  omega

/-- Extend a 16-word block to the 64-word message schedule. -/
def sha256Schedule (block : List Nat) : List Nat :=
  (List.range 48).foldl
    (fun ws _ =>
      let n := ws.length
      ws ++ [w32 (smallSigma1 (ws.getD (n - 2) 0) + ws.getD (n - 7) 0
        + smallSigma0 (ws.getD (n - 15) 0) + ws.getD (n - 16) 0)])
    block

/-- One SHA-256 round. -/
def sha256Round (st : H8) (kw : Nat × Nat) : H8 :=
  match st, kw with
  | (a, b, c, d, e, f, g, h), (k, w) =>
    let t1 := w32 (h + bigSigma1 e + sha256Ch e f g + k + w)
    let t2 := w32 (bigSigma0 a + sha256Maj a b c)
    (w32 (t1 + t2), a, b, c, w32 (d + t1), e, f, g)

/-- SHA-256 compression of one 16-word block into the running state. -/
def sha256Compress (st : H8) (block : List Nat) : H8 :=
  match st with
  | (a0, b0, c0, d0, e0, f0, g0, h0) =>
    match (sha256K.zip (sha256Schedule block)).foldl sha256Round
        (a0, b0, c0, d0, e0, f0, g0, h0) with
    | (a, b, c, d, e, f, g, h) =>
      (w32 (a0 + a), w32 (b0 + b), w32 (c0 + c), w32 (d0 + d),
       w32 (e0 + e), w32 (f0 + f), w32 (g0 + g), w32 (h0 + h))

/-- Big-endian bytes of one 32-bit word. -/
def wordBytes (w : Nat) : List Nat :=
  [w / 2 ^ 24 % 256, w / 2 ^ 16 % 256, w / 2 ^ 8 % 256, w % 256]

/-- SHA-256 digest (32 bytes) of a byte sequence: the model of
`hashlib.sha256(x).digest()`. -/
def sha256 (msg : List Nat) : List Nat :=
  let s := (chunkWords (bytesToWords (sha256Pad msg))).foldl sha256Compress sha256H0
  wordBytes s.1 ++ wordBytes s.2.1 ++ wordBytes s.2.2.1 ++ wordBytes s.2.2.2.1
    ++ wordBytes s.2.2.2.2.1 ++ wordBytes s.2.2.2.2.2.1
    ++ wordBytes s.2.2.2.2.2.2.1 ++ wordBytes s.2.2.2.2.2.2.2

/-! The cipher, from utils/encrypt.py and utils/decrypt.py. -/

/-- The XOR loop shared by `encrypt` and `decrypt`: byte `i` of the data is
XORed with byte `i % len(keystream)` of the keystream (the counter starts at
`i`). -/
def xorWithKey (ks : List Nat) : Nat → List Nat → List Nat
  | _, [] => []
  | i, b :: bs => (b ^^^ ks.getD (i % ks.length) 0) :: xorWithKey ks (i + 1) bs

/-- Body of `encrypt` after `plaintext.encode()`: XOR the data bytes with the
SHA-256 digest of the encoded key, then render as lowercase hex
(utils/encrypt.py lines 4-15). -/
def encryptBytes (key data : List Nat) : List Nat :=
  bytesToHex (xorWithKey (sha256 (utf8Encode key)) 0 data)

/-- Model of `encrypt(key, plaintext)` from utils/encrypt.py. -/
def encrypt (key plaintext : List Nat) : List Nat :=
  encryptBytes key (utf8Encode plaintext)

/-- Model of `decrypt(key, ciphertext)` from utils/decrypt.py: hex-decode the
ciphertext (raises, i.e. `none`, on non-hex input), XOR with the digest of the
encoded key, and build the result with `chr` on each byte (so the resulting
code points are exactly the decrypted bytes). -/
def decrypt (key ciphertext : List Nat) : Option (List Nat) :=
  (hexToBytes ciphertext).map (fun bs => xorWithKey (sha256 (utf8Encode key)) 0 bs)

/-! The token codec. Encoding lives in `change_file_names` (mount.py lines
139-190); decoding is `decode_file` (unmount.py lines 82-117). -/

/-- The token built by mount's `change_file_names` for one entry:
`hashed_extension = encrypt(key_segment, extension)`,
`hashed_key = encrypt(mtime, key_segment)`,
`hashed_mtime = encrypt(hashed_extension, mtime)`, joined with `-` (code
point 45), with an optional fourth field `encrypt(key_segment, name)` when a
name is embedded (mount.py lines 144-170). -/
def encode_token (key_segment mtime extension : List Nat)
    (additional : Option (List Nat)) : List Nat :=
  let hashed_extension := encrypt key_segment extension
  let hashed_key := encrypt mtime key_segment
  let hashed_mtime := encrypt hashed_extension mtime
  hashed_mtime ++ 45 :: hashed_extension ++ 45 :: hashed_key
    ++ (match additional with
        | some nm => 45 :: encrypt key_segment nm
        | none => [])

/-- Model of `decode_file` (unmount.py lines 82-117): split the name on `-`;
fewer than three segments raise (the starred unpacking fails), modelled as
`none`; then decrypt time with the raw extension segment as key, the key with
the decrypted time, the extension with the decrypted key, and, when trailing
segments exist or index naming is requested, the joined trailing segments with
the decrypted key. -/
def decode_file (filename : List Nat) (use_index_filename : Bool) :
    Option (List Nat × List Nat × List Nat) :=
  match pySplit 45 filename with
  | hashed_modified_time :: hashed_extension :: hashed_key :: hashed_filename =>
    (decrypt hashed_extension hashed_modified_time).bind fun decrypted_modified_time =>
      (decrypt decrypted_modified_time hashed_key).bind fun decrypted_key =>
        (decrypt decrypted_key hashed_extension).bind fun decrypted_extension =>
          if !hashed_filename.isEmpty || use_index_filename then
            (decrypt decrypted_key hashed_filename.flatten).map fun og_filename =>
              (decrypted_modified_time, decrypted_extension, og_filename)
          else some (decrypted_modified_time, decrypted_extension, [])
  | _ => none

/-- The `mtime` field stored by mount's `encode_file`:
`codecs.encode(str(mdate)).hex()` (mount.py lines 112-136). -/
def encoded_mdate (mdate : Int) : List Nat :=
  bytesToHex (utf8Encode (intToDecimal mdate))

/-- The timestamp recovery done by unmount's `change_file_names` on the
decoded time field: `int(bytes.fromhex(t).decode("utf8"))`
(unmount.py lines 131-146). -/
def restore_mtime (t : List Nat) : Option Int :=
  (hexToBytes t).bind fun bs => (utf8Decode bs).bind fun s => pyIntParse s

/-! The directory tree and the walkers. The filesystem handed to
`os.scandir` is modelled as a tree of entries; `st_mtime` is a rational (a
stand-in for the float the OS reports). -/

/-- A filesystem entry: the input the walkers traverse. -/
inductive FSEntry where
  | file (name : List Nat) (st_mtime : ℚ)
  | dir (name : List Nat) (st_mtime : ℚ) (children : List FSEntry)

/-- Name of an entry. -/
def FSEntry.name : FSEntry → List Nat
  | .file n _ => n
  | .dir n _ _ => n

/-- Reported modification time of an entry. -/
def FSEntry.st_mtime : FSEntry → ℚ
  | .file _ m => m
  | .dir _ m _ => m

/-- Path of a child of directory `dirPath`, with the `\` separator the
original uses (mount.py line 177, unmount.py line 126). -/
def joinPath (dirPath name : List Nat) : List Nat := dirPath ++ 92 :: name

/-- Model of Python `str.endswith(tuple_of_suffixes)`: true when the string
ends with at least one member; in particular false for the empty tuple. -/
def endswithAny (name : List Nat) (suffixes : List (List Nat)) : Bool :=
  suffixes.any (fun s => s.isSuffixOf name)

/-- Stable insertion into a descending-by-key list: the model of one step of
Python's stable `sort(key=..., reverse=True)`. -/
def insertKeyDesc {κ : Type} [LinearOrder κ] (key : α → κ) (x : α) :
    List α → List α
  | [] => [x]
  | y :: ys => if key y ≤ key x then x :: y :: ys else y :: insertKeyDesc key x ys

/-- Stable descending sort by a key, the model of
`sorted(..., key=..., reverse=True)` and `list.sort(key=..., reverse=True)`. -/
def sortByKeyDesc {κ : Type} [LinearOrder κ] (key : α → κ) : List α → List α
  | [] => []
  | x :: xs => insertKeyDesc key x (sortByKeyDesc key xs)

namespace Mount

/-- The per-entry dictionary built by mount's `encode_file`
(mount.py lines 112-136). -/
structure FileInfo where
  root : List Nat
  name : List Nat
  mtime : List Nat
  is_dir : Bool
  deriving DecidableEq

/-- Model of mount's `encode_file`: capture path, name, the hex encoding of
the ceiling of `st_mtime`, and the directory flag (mount.py lines 112-136). -/
def encode_file (path name : List Nat) (st_mtime : ℚ) (is_dir : Bool) : FileInfo :=
  { root := path, name := name, mtime := encoded_mdate ⌈st_mtime⌉, is_dir := is_dir }

/-- Model of mount's `separate_file_and_directory` (mount.py lines 84-109):
files in encounter order, then directories sorted by the length of their
`root` path, longest first (stable). -/
def separate_file_and_directory (files : List FileInfo) : List FileInfo :=
  files.filter (fun f => !f.is_dir)
    ++ sortByKeyDesc (fun d => d.root.length) (files.filter (fun f => f.is_dir))

/-- Model of mount's `get_files` (mount.py lines 19-71) on the scandir
listing `children` of directory `dirPath`. The listing is first sorted by
modification time, descending, when `order_by_timestamp` is set. In the loop,
an excluded name is skipped only when the entry is a directory; a recursive
directory contributes its own encoded descriptor followed by its recursive
listing; the suffix test is then applied to every entry, directories included
(no `else`/`continue` separates the two `if` blocks in the source), and an
entry failing it contributes nothing further. The accumulated list is passed
through `separate_file_and_directory` on return. -/
def get_files (excluded : List (List Nat)) (allowed : List (List Nat))
    (order_by_timestamp recursive : Bool) (dirPath : List Nat)
    (children : List FSEntry) : List FileInfo :=
  let listing :=
    if order_by_timestamp
    then sortByKeyDesc (fun e => e.1.st_mtime) children.attach
    else children.attach
  separate_file_and_directory <| List.flatten <| listing.map fun ec =>
    match ec with
    | ⟨FSEntry.file n m, _⟩ =>
      if endswithAny n allowed then [encode_file (joinPath dirPath n) n m false]
      else []
    | ⟨FSEntry.dir n m cs, hmem⟩ =>
      if n ∈ excluded then []
      else
        (if recursive then
           encode_file (joinPath dirPath n) n m true
             :: get_files excluded allowed order_by_timestamp recursive
                 (joinPath dirPath n) cs
         else [])
          ++ (if endswithAny n allowed then
                [encode_file (joinPath dirPath n) n m true]
              else [])
termination_by sizeOf children
decreasing_by
  have h1 : sizeOf (FSEntry.dir n m cs) < sizeOf children :=
    List.sizeOf_lt_of_mem hmem
  simp at h1
  omega

end Mount

namespace Unmount

/-- Model of an `os.DirEntry` as unmount's walker returns it. -/
structure DirEntry where
  path : List Nat
  name : List Nat
  is_dir : Bool
  deriving DecidableEq

/-- Model of unmount's `get_files` (unmount.py lines 20-51): plain
accumulation in scandir order; an excluded directory name is skipped; a
recursive directory contributes its recursive listing first and its own
descriptor after it; every non-excluded entry is appended unconditionally
(there is no suffix filter and no separation step in this walker). -/
def get_files (excluded : List (List Nat)) (recursive : Bool)
    (dirPath : List Nat) : List FSEntry → List DirEntry
  | [] => []
  | FSEntry.file n _ :: rest =>
    DirEntry.mk (joinPath dirPath n) n false
      :: get_files excluded recursive dirPath rest
  | FSEntry.dir n _ cs :: rest =>
    (if n ∈ excluded then []
     else
       (if recursive then
          get_files excluded recursive (joinPath dirPath n) cs
        else [])
         ++ [DirEntry.mk (joinPath dirPath n) n true])
      ++ get_files excluded recursive dirPath rest

/-- Model of unmount's `separate_file_and_directory` (unmount.py lines
54-80): files first, then directories sorted by path length, longest first.
`__main__` (unmount.py line 231) computes this into the variable
`separted_file_dir` and then never uses it: the raw walker output is what
`change_file_names` receives. -/
def separate_file_and_directory (files : List DirEntry) : List DirEntry :=
  files.filter (fun f => !f.is_dir)
    ++ sortByKeyDesc (fun d => d.path.length) (files.filter (fun f => f.is_dir))

/-- The timestamp recovered by unmount's `change_file_names` for one entry
name: `decode_file`, then `bytes.fromhex(...).decode("utf8")`, then `int(...)`
(unmount.py lines 131-146). Any failure in this prefix of the loop body is an
uncaught exception. -/
def decode_timestamp (name : List Nat) (use_index_filename : Bool) : Option Int :=
  (decode_file name use_index_filename).bind fun d => restore_mtime d.1

/-- One entry as consumed by unmount's `change_file_names`, together with the
outcome of its two external filesystem effects: whether
`filedate.File(path).set(...)` succeeds and whether `os.rename` succeeds. -/
structure Entry where
  name : List Nat
  is_dir : Bool
  metaOk : Bool
  renameOk : Bool
  deriving DecidableEq

/-- Observable outcome of the unmount loop for one entry. -/
inductive Step where
  | renamed
  | renameFailed
  | metaHalted
  | crashed
  deriving DecidableEq

/-- Model of the control flow of unmount's `change_file_names` (unmount.py
lines 120-171). Per entry: the decode/parse prefix runs unguarded (a failure
is an uncaught exception that ends the whole loop, recorded as `crashed`);
then the metadata write runs inside the outer `try` whose bare `except`
breaks out of the loop (recorded as `metaHalted`, nothing after it is
processed); then the rename runs inside the inner `try` whose handler prints
and falls through to the next entry (`renameFailed`). -/
def change_file_names (use_index_filename : Bool) : List Entry → List Step
  | [] => []
  | e :: rest =>
    match decode_timestamp e.name use_index_filename with
    | none => [Step.crashed]
    | some _ =>
      if e.metaOk then
        (if e.renameOk then Step.renamed else Step.renameFailed)
          :: change_file_names use_index_filename rest
      else [Step.metaHalted]

/-- The base name unmount's `change_file_names` renames a non-directory entry
to, for an entry whose token embeds a name and with `--use_index` set (so the
`uuid4` fallback is not taken): decoded name, a dot, and the decoded
extension (unmount.py lines 155-167). -/
def restored_name (token : List Nat) : Option (List Nat) :=
  (decode_file token true).map fun d => d.2.2 ++ 46 :: d.2.1

end Unmount

namespace Mount

/-- The extension mount's `change_file_names` derives for a non-directory
entry: `fname.split(".").pop().lower()` — the last dot-separated segment of
the name, lowercased; when the name has no dot this is the whole name,
lowercased (mount.py line 144). -/
def extension (fname : List Nat) : List Nat :=
  pyLower ((pySplit 46 fname).getLastD [])

/-- The token mount builds for a file under `--use_index`: the extension as
above and the embedded name `fname.split(".")[0]` (mount.py lines 144-170). -/
def file_token (key_segment mtime fname : List Nat) : List Nat :=
  encode_token key_segment mtime (extension fname)
    (some ((pySplit 46 fname).headD []))

end Mount

/-! Helper lemmas about the byte/hex/UTF-8 primitives. -/

theorem wordBytes_mem_lt (w : Nat) : ∀ b ∈ wordBytes w, b < 256 := by
  intro b hb
  simp [wordBytes] at hb
  rcases hb with h | h | h | h <;> omega

theorem sha256_mem_lt (m : List Nat) : ∀ b ∈ sha256 m, b < 256 := by
  intro b hb
  simp only [sha256, List.mem_append] at hb
  rcases hb with ((((((h | h) | h) | h) | h) | h) | h) | h <;>
    exact wordBytes_mem_lt _ _ h

theorem getD_mod_lt (ks : List Nat) (hks : ∀ k ∈ ks, k < 256) (i : Nat) :
    ks.getD (i % ks.length) 0 < 256 := by
  rcases ks with _ | ⟨k, ks'⟩
  · simp [List.getD]
  · have hlen : i % (k :: ks').length < (k :: ks').length :=
      Nat.mod_lt _ (by simp)
    rw [List.getD_eq_getElem _ _ hlen]
    exact hks _ (List.getElem_mem hlen)

theorem xorWithKey_involution (ks : List Nat) (i : Nat) (bs : List Nat) :
    xorWithKey ks i (xorWithKey ks i bs) = bs := by
  induction bs generalizing i with
  | nil => simp [xorWithKey]
  | cons b bs ih => simp [xorWithKey, ih, Nat.xor_cancel_right]

theorem xorWithKey_length (ks : List Nat) (i : Nat) (bs : List Nat) :
    (xorWithKey ks i bs).length = bs.length := by
  induction bs generalizing i with
  | nil => simp [xorWithKey]
  | cons b bs ih => simp [xorWithKey, ih]

theorem xorWithKey_mem_lt (ks : List Nat) (hks : ∀ k ∈ ks, k < 256)
    (i : Nat) (bs : List Nat) (hbs : ∀ x ∈ bs, x < 256) :
    ∀ b ∈ xorWithKey ks i bs, b < 256 := by
  induction bs generalizing i with
  | nil => simp [xorWithKey]
  | cons x bs ih =>
    intro b hb
    simp only [xorWithKey, List.mem_cons] at hb
    rcases hb with h | h
    · subst h
      exact Nat.xor_lt_two_pow (n := 8) (hbs x (by simp)) (getD_mod_lt ks hks i)
    · exact ih (i + 1) (fun x hx => hbs x (by simp [hx])) b h

theorem hexDigitVal_hexDigitChar (n : Nat) (h : n < 16) :
    hexDigitVal (hexDigitChar n) = some n := by
  unfold hexDigitVal hexDigitChar
  split_ifs <;> simp_all <;> omega

theorem bytesToHex_length (bs : List Nat) :
    (bytesToHex bs).length = 2 * bs.length := by
  induction bs with
  | nil => simp [bytesToHex]
  | cons b bs ih => simp [bytesToHex, ih]; omega

theorem hexDigitChar_range (n : Nat) (h : n < 16) :
    (48 ≤ hexDigitChar n ∧ hexDigitChar n ≤ 57)
      ∨ (97 ≤ hexDigitChar n ∧ hexDigitChar n ≤ 102) := by
  unfold hexDigitChar
  split_ifs <;> omega

theorem bytesToHex_chars (bs : List Nat) (hbs : ∀ b ∈ bs, b < 256) :
    ∀ c ∈ bytesToHex bs, (48 ≤ c ∧ c ≤ 57) ∨ (97 ≤ c ∧ c ≤ 102) := by
  induction bs with
  | nil => simp [bytesToHex]
  | cons b bs ih =>
    intro c hc
    have hb : b < 256 := hbs b (by simp)
    simp only [bytesToHex, List.mem_cons] at hc
    rcases hc with h | h | h
    · subst h; exact hexDigitChar_range _ (by omega)
    · subst h; exact hexDigitChar_range _ (by omega)
    · exact ih (fun x hx => hbs x (by simp [hx])) c h

theorem hexToBytes_bytesToHex (bs : List Nat) (hbs : ∀ b ∈ bs, b < 256) :
    hexToBytes (bytesToHex bs) = some bs := by
  induction bs with
  | nil => simp [bytesToHex, hexToBytes]
  | cons b bs ih =>
    have hb : b < 256 := hbs b (by simp)
    simp only [bytesToHex, hexToBytes,
      hexDigitVal_hexDigitChar (b / 16) (by omega),
      hexDigitVal_hexDigitChar (b % 16) (by omega),
      ih (fun x hx => hbs x (by simp [hx]))]
    have : 16 * (b / 16) + b % 16 = b := by omega
    simp [this]

theorem utf8EncodeChar_ascii (c : Nat) (h : c < 128) : utf8EncodeChar c = [c] := by
  simp [utf8EncodeChar, h]

theorem utf8Encode_ascii (s : List Nat) (hs : ∀ c ∈ s, c < 128) :
    utf8Encode s = s := by
  induction s with
  | nil => simp [utf8Encode]
  | cons c cs ih =>
    have h1 : utf8EncodeChar c = [c] := utf8EncodeChar_ascii c (hs c (by simp))
    have h2 := ih (fun x hx => hs x (by simp [hx]))
    simp only [utf8Encode, List.map_cons, List.flatten_cons, h1] at *
    simp [h2]

theorem utf8EncodeChar_mem_lt (c : Nat) (h : c < 1114112) :
    ∀ b ∈ utf8EncodeChar c, b < 256 := by
  intro b hb
  unfold utf8EncodeChar at hb
  split_ifs at hb <;> simp at hb <;> omega

theorem utf8Encode_mem_lt (s : List Nat) (hs : ∀ c ∈ s, c < 1114112) :
    ∀ b ∈ utf8Encode s, b < 256 := by
  intro b hb
  simp only [utf8Encode, List.mem_flatten, List.mem_map] at hb
  obtain ⟨l, ⟨c, hc, rfl⟩, hbl⟩ := hb
  exact utf8EncodeChar_mem_lt c (hs c hc) b hbl

theorem utf8Decode_ascii (bs : List Nat) (hbs : ∀ b ∈ bs, b < 128) :
    utf8Decode bs = some bs := by
  have aux : ∀ (fuel : Nat) (l : List Nat), l.length ≤ fuel → (∀ b ∈ l, b < 128) →
      utf8DecodeAux fuel l = some l := by
    intro fuel
    induction fuel with
    | zero =>
      intro l h1 _
      cases l with
      | nil => rfl
      | cons b rest => simp at h1
    | succ n ih =>
      intro l h1 h2
      cases l with
      | nil => rfl
      | cons b rest =>
        have hb : b < 128 := h2 b (by simp)
        rw [utf8DecodeAux.eq_def]
        dsimp only
        rw [if_pos hb, ih rest (by simp at h1; omega) (fun x hx => h2 x (by simp [hx]))]
        rfl
  exact aux bs.length bs (le_refl _) hbs

/-! Helper lemmas about the cipher. -/

theorem decrypt_encryptBytes (key data : List Nat) (hd : ∀ b ∈ data, b < 256) :
    decrypt key (encryptBytes key data) = some data := by
  unfold decrypt encryptBytes
  rw [hexToBytes_bytesToHex _
    (xorWithKey_mem_lt _ (sha256_mem_lt (utf8Encode key)) 0 data hd)]
  simp [xorWithKey_involution]

theorem decrypt_encrypt_ascii (key plaintext : List Nat)
    (hp : ∀ c ∈ plaintext, c < 128) :
    decrypt key (encrypt key plaintext) = some plaintext := by
  unfold encrypt
  rw [utf8Encode_ascii plaintext hp]
  exact decrypt_encryptBytes key plaintext (fun b hb => by
    have := hp b hb
    omega)

theorem encrypt_chars (key plaintext : List Nat)
    (hp : ∀ c ∈ plaintext, c < 1114112) :
    ∀ c ∈ encrypt key plaintext, (48 ≤ c ∧ c ≤ 57) ∨ (97 ≤ c ∧ c ≤ 102) := by
  unfold encrypt encryptBytes
  exact bytesToHex_chars _
    (xorWithKey_mem_lt _ (sha256_mem_lt (utf8Encode key)) 0 _
      (utf8Encode_mem_lt plaintext hp))

theorem encrypt_chars_ascii (key plaintext : List Nat)
    (hp : ∀ c ∈ plaintext, c < 1114112) :
    ∀ c ∈ encrypt key plaintext, c < 128 := by
  intro c hc
  rcases encrypt_chars key plaintext hp c hc with h | h <;> omega

theorem encrypt_no_dash (key plaintext : List Nat)
    (hp : ∀ c ∈ plaintext, c < 1114112) :
    45 ∉ encrypt key plaintext := by
  intro hmem
  rcases encrypt_chars key plaintext hp 45 hmem with h | h <;> omega

theorem encrypt_length (key plaintext : List Nat) :
    (encrypt key plaintext).length = 2 * (utf8Encode plaintext).length := by
  unfold encrypt encryptBytes
  rw [bytesToHex_length, xorWithKey_length]

/-! Helper lemmas about `pySplit`. -/

theorem pySplit_ne_nil (sep : Nat) (l : List Nat) : pySplit sep l ≠ [] := by
  cases l with
  | nil => simp [pySplit]
  | cons c rest =>
    rw [pySplit]
    split_ifs
    · simp
    · cases h : pySplit sep rest <;> simp

theorem pySplit_no_sep (sep : Nat) (l : List Nat) (hl : sep ∉ l) :
    pySplit sep l = [l] := by
  induction l with
  | nil => rfl
  | cons c rest ih =>
    have hc : ¬c = sep := by
      intro h; exact hl (by simp [h])
    rw [pySplit, if_neg hc, ih (fun h => hl (by simp [h]))]

theorem pySplit_append (sep : Nat) (a r : List Nat) (ha : sep ∉ a) :
    pySplit sep (a ++ sep :: r) = a :: pySplit sep r := by
  induction a with
  | nil => simp [pySplit]
  | cons c rest ih =>
    have hc : ¬c = sep := by
      intro h; exact ha (by simp [h])
    rw [List.cons_append, pySplit, if_neg hc, ih (fun h => ha (by simp [h]))]

theorem pySplit_two_of_mem (sep : Nat) (l : List Nat) (hl : sep ∈ l) :
    ∃ s1 s2 ss, pySplit sep l = s1 :: s2 :: ss := by
  induction l with
  | nil => simp at hl
  | cons c rest ih =>
    by_cases hc : c = sep
    · subst hc
      rcases h : pySplit c rest with _ | ⟨s, ss⟩
      · exact absurd h (pySplit_ne_nil c rest)
      · exact ⟨[], s, ss, by rw [pySplit, if_pos rfl, h]⟩
    · have hrest : sep ∈ rest := by
        rcases List.mem_cons.mp hl with h | h
        · exact absurd h.symm hc
        · exact h
      obtain ⟨s1, s2, ss, h⟩ := ih hrest
      exact ⟨c :: s1, s2, ss, by rw [pySplit, if_neg hc, h]⟩

theorem pySplit_getLast_append (sep : Nat) (a b : List Nat) (hb : sep ∉ b) :
    (pySplit sep (a ++ sep :: b)).getLastD [] = b := by
  induction a with
  | nil =>
    rw [List.nil_append, pySplit, if_pos rfl, pySplit_no_sep sep b hb]
    rfl
  | cons c rest ih =>
    by_cases hc : c = sep
    · subst hc
      rw [List.cons_append, pySplit, if_pos rfl, List.getLastD_cons]
      exact ih
    · rw [List.cons_append, pySplit, if_neg hc]
      obtain ⟨s1, s2, ss, h⟩ :=
        pySplit_two_of_mem sep (rest ++ sep :: b) (by simp)
      rw [h, List.getLastD_cons, List.getLastD_cons]
      rw [h, List.getLastD_cons, List.getLastD_cons] at ih
      exact ih

/-! Helper lemmas about decimal strings and `int` parsing. -/

theorem natToDecimal_digits (n : Nat) : ∀ c ∈ natToDecimal n, 48 ≤ c ∧ c ≤ 57 := by
  induction n using Nat.strong_induction_on with
  | _ n ih =>
    intro c hc
    rw [natToDecimal] at hc
    split_ifs at hc with h
    · simp at hc; omega
    · rw [List.mem_append] at hc
      rcases hc with hc | hc
      · exact ih (n / 10) (Nat.div_lt_self (by omega) (by omega)) c hc
      · simp at hc; omega

theorem natToDecimal_ne_nil (n : Nat) : natToDecimal n ≠ [] := by
  rw [natToDecimal]
  split_ifs <;> simp

theorem parseDigitsAux_append (a b : List Nat) : ∀ acc,
    parseDigitsAux acc (a ++ b)
      = (parseDigitsAux acc a).bind (fun m => parseDigitsAux m b) := by
  induction a with
  | nil => intro acc; simp [parseDigitsAux]
  | cons c cs ih =>
    intro acc
    rw [List.cons_append]
    simp only [parseDigitsAux]
    split_ifs with h
    · exact ih _
    · simp

theorem parseDigitsAux_natToDecimal (n : Nat) : ∀ acc,
    parseDigitsAux acc (natToDecimal n)
      = some (acc * 10 ^ (natToDecimal n).length + n) := by
  induction n using Nat.strong_induction_on with
  | _ n ih =>
    intro acc
    rw [natToDecimal]
    split_ifs with h
    · have hdig : 48 ≤ 48 + n ∧ 48 + n ≤ 57 := by omega
      simp [parseDigitsAux, hdig, pow_one]
    · rw [parseDigitsAux_append, ih (n / 10) (Nat.div_lt_self (by omega) (by omega)) acc,
        Option.some_bind, parseDigitsAux,
        if_pos (show 48 ≤ 48 + n % 10 ∧ 48 + n % 10 ≤ 57 by omega), parseDigitsAux]
      have h10 : 10 ^ ((natToDecimal (n / 10)).length + 1)
          = 10 ^ (natToDecimal (n / 10)).length * 10 := pow_succ 10 _
      simp only [List.length_append, List.length_cons, List.length_nil, zero_add,
        h10, ← mul_assoc]
      congr 1
      omega

theorem parseDigits_natToDecimal (n : Nat) : parseDigits (natToDecimal n) = some n := by
  rcases hnd : natToDecimal n with _ | ⟨c, cs⟩
  · exact absurd hnd (natToDecimal_ne_nil n)
  · rw [parseDigits, ← hnd, parseDigitsAux_natToDecimal n 0]
    simp

theorem pyIntParse_intToDecimal (i : Int) : pyIntParse (intToDecimal i) = some i := by
  by_cases hneg : i < 0
  · rw [intToDecimal, if_pos hneg]
    show (parseDigits (natToDecimal (-i).toNat)).map (fun (n : Nat) => -(n : Int))
      = some i
    rw [parseDigits_natToDecimal]
    simp only [Option.map_some']
    congr 1
    omega
  · rw [intToDecimal, if_neg hneg]
    unfold pyIntParse
    split
    · rename_i rest heq
      have h45 := (natToDecimal_digits i.toNat 45 (by rw [heq]; simp)).1
      omega
    · rename_i rest heq
      have h43 := (natToDecimal_digits i.toNat 43 (by rw [heq]; simp)).1
      omega
    · rw [parseDigits_natToDecimal]
      simp only [Option.map_some']
      congr 1
      omega

theorem intToDecimal_chars_lt (i : Int) : ∀ c ∈ intToDecimal i, c < 128 := by
  intro c hc
  rw [intToDecimal] at hc
  split_ifs at hc with h
  · rcases List.mem_cons.mp hc with hc | hc
    · omega
    · have := natToDecimal_digits _ c hc; omega
  · have := natToDecimal_digits _ c hc; omega

theorem restore_mtime_encoded (m : Int) : restore_mtime (encoded_mdate m) = some m := by
  unfold restore_mtime encoded_mdate
  have hd := intToDecimal_chars_lt m
  rw [utf8Encode_ascii _ hd,
    hexToBytes_bytesToHex _ (fun b hb => by have := hd b hb; omega)]
  simp only [Option.some_bind]
  rw [utf8Decode_ascii _ hd]
  simp only [Option.some_bind]
  exact pyIntParse_intToDecimal m

/-! The token codec round trip. -/

theorem decrypt_nil (key : List Nat) : decrypt key [] = some [] := rfl

theorem pySplit_token3 (a b c : List Nat) (ha : 45 ∉ a) (hb : 45 ∉ b)
    (hc : 45 ∉ c) : pySplit 45 (a ++ 45 :: (b ++ 45 :: c)) = [a, b, c] := by
  rw [pySplit_append 45 a _ ha, pySplit_append 45 b _ hb, pySplit_no_sep 45 c hc]

theorem pySplit_token4 (a b c d : List Nat) (ha : 45 ∉ a) (hb : 45 ∉ b)
    (hc : 45 ∉ c) (hd : 45 ∉ d) :
    pySplit 45 (a ++ 45 :: (b ++ 45 :: (c ++ 45 :: d))) = [a, b, c, d] := by
  rw [pySplit_append 45 a _ ha, pySplit_append 45 b _ hb,
    pySplit_append 45 c _ hc, pySplit_no_sep 45 d hd]

theorem decode_encode_token (K mt ext : List Nat) (nm : Option (List Nat))
    (ui : Bool)
    (hmt : ∀ c ∈ mt, c < 128) (hK : ∀ c ∈ K, c < 128)
    (hext : ∀ c ∈ ext, c < 128)
    (hnm : ∀ s, nm = some s → ∀ c ∈ s, c < 128) :
    decode_file (encode_token K mt ext nm) ui = some (mt, ext, nm.getD []) := by
  have hmtU : ∀ c ∈ mt, c < 1114112 := fun c hc => by have := hmt c hc; omega
  have hKU : ∀ c ∈ K, c < 1114112 := fun c hc => by have := hK c hc; omega
  have hextU : ∀ c ∈ ext, c < 1114112 := fun c hc => by have := hext c hc; omega
  have hdm := encrypt_no_dash (encrypt K ext) mt hmtU
  have hde := encrypt_no_dash K ext hextU
  have hdk := encrypt_no_dash mt K hKU
  cases nm with
  | none =>
    have htok : encode_token K mt ext none
        = encrypt (encrypt K ext) mt
            ++ 45 :: (encrypt K ext ++ 45 :: encrypt mt K) := by
      unfold encode_token
      simp [List.append_assoc]
    rw [htok]
    unfold decode_file
    rw [pySplit_token3 _ _ _ hdm hde hdk]
    simp only []
    rw [decrypt_encrypt_ascii _ _ hmt]
    simp only [Option.some_bind]
    rw [decrypt_encrypt_ascii _ _ hK]
    simp only [Option.some_bind]
    rw [decrypt_encrypt_ascii _ _ hext]
    simp only [Option.some_bind]
    cases ui <;> simp [decrypt_nil]
  | some n =>
    have hnU : ∀ c ∈ n, c < 1114112 := fun c hc => by
      have := hnm n rfl c hc; omega
    have hdn := encrypt_no_dash K n hnU
    have htok : encode_token K mt ext (some n)
        = encrypt (encrypt K ext) mt
            ++ 45 :: (encrypt K ext
              ++ 45 :: (encrypt mt K ++ 45 :: encrypt K n)) := by
      unfold encode_token
      simp [List.append_assoc]
    rw [htok]
    unfold decode_file
    rw [pySplit_token4 _ _ _ _ hdm hde hdk hdn]
    simp only []
    rw [decrypt_encrypt_ascii _ _ hmt]
    simp only [Option.some_bind]
    rw [decrypt_encrypt_ascii _ _ hK]
    simp only [Option.some_bind]
    rw [decrypt_encrypt_ascii _ _ hext]
    simp only [Option.some_bind]
    simp only [List.isEmpty_cons, Bool.false_or, List.flatten,
      List.append_nil, Bool.true_or]
    rw [decrypt_encrypt_ascii _ _ (hnm n rfl)]
    simp

/-! Helpers combining the codec with the timestamp encoding. -/

theorem bytesToHex_ascii (bs : List Nat) (h : ∀ b ∈ bs, b < 256) :
    ∀ c ∈ bytesToHex bs, c < 128 := by
  intro c hc
  rcases bytesToHex_chars bs h c hc with h1 | h1 <;> omega

theorem encoded_mdate_ascii (m : Int) : ∀ c ∈ encoded_mdate m, c < 128 := by
  unfold encoded_mdate
  apply bytesToHex_ascii
  rw [utf8Encode_ascii _ (intToDecimal_chars_lt m)]
  intro b hb
  have := intToDecimal_chars_lt m b hb
  omega

theorem decode_timestamp_token (m : Int) (K ext : List Nat) (ui : Bool)
    (hK : ∀ c ∈ K, c < 128) (hext : ∀ c ∈ ext, c < 128) :
    Unmount.decode_timestamp (encode_token K (encoded_mdate m) ext none) ui
      = some m := by
  unfold Unmount.decode_timestamp
  rw [decode_encode_token K _ ext none ui (encoded_mdate_ascii m) hK hext
    (fun s h => by simp at h)]
  simp only [Option.some_bind]
  exact restore_mtime_encoded m

/-! The unmount loop characterization. -/

theorem change_file_names_spec (ui : Bool) (es : List Unmount.Entry)
    (h : ∀ e ∈ es, (Unmount.decode_timestamp e.name ui).isSome) :
    Unmount.change_file_names ui es
      = (es.takeWhile (fun e => e.metaOk)).map
          (fun e => if e.renameOk then Unmount.Step.renamed
                    else Unmount.Step.renameFailed)
        ++ (if es.all (fun e => e.metaOk) then []
            else [Unmount.Step.metaHalted]) := by
  induction es with
  | nil => rfl
  | cons e rest ih =>
    have he := h e (by simp)
    rcases hd : Unmount.decode_timestamp e.name ui with _ | t
    · rw [hd] at he; simp at he
    · rw [Unmount.change_file_names, hd]
      by_cases hm : e.metaOk
      · simp only [hm, if_true, List.takeWhile_cons, List.all_cons,
          decide_eq_true_eq, Bool.true_and, List.map_cons, List.cons_append]
        rw [ih (fun x hx => h x (by simp [hx]))]
      · simp [hm, List.takeWhile_cons, List.all_cons]

/-! Helpers about `pySplit` segments and `pyLower`, used for the
extension-lowercasing claim. -/

theorem pySplit_segments_no_sep (sep : Nat) (l : List Nat) :
    ∀ s ∈ pySplit sep l, sep ∉ s := by
  induction l with
  | nil => intro s hs; simp [pySplit] at hs; simp [hs]
  | cons c rest ih =>
    intro s hs
    rw [pySplit] at hs
    split_ifs at hs with hc
    · rcases List.mem_cons.mp hs with h | h
      · simp [h]
      · exact ih s h
    · rcases hsp : pySplit sep rest with _ | ⟨s1, ss⟩
      · exact absurd hsp (pySplit_ne_nil sep rest)
      · rw [hsp] at hs
        rcases List.mem_cons.mp hs with h | h
        · subst h
          intro hmem
          rcases List.mem_cons.mp hmem with h | h
          · exact hc h.symm
          · exact ih s1 (by rw [hsp]; simp) h
        · exact ih s (by rw [hsp]; simp [h])

theorem pySplit_mem_mem (sep : Nat) (l : List Nat) :
    ∀ s ∈ pySplit sep l, ∀ c ∈ s, c ∈ l := by
  induction l with
  | nil => intro s hs; simp [pySplit] at hs; simp [hs]
  | cons x rest ih =>
    intro s hs c hc
    rw [pySplit] at hs
    split_ifs at hs with hx
    · rcases List.mem_cons.mp hs with h | h
      · subst h; simp at hc
      · exact List.mem_cons_of_mem x (ih s h c hc)
    · rcases hsp : pySplit sep rest with _ | ⟨s1, ss⟩
      · exact absurd hsp (pySplit_ne_nil sep rest)
      · rw [hsp] at hs
        rcases List.mem_cons.mp hs with h | h
        · subst h
          rcases List.mem_cons.mp hc with h | h
          · simp [h]
          · exact List.mem_cons_of_mem x (ih s1 (by rw [hsp]; simp) c h)
        · exact List.mem_cons_of_mem x (ih s (by rw [hsp]; simp [h]) c hc)

theorem getLastD_mem {α : Type} (l : List α) (h : l ≠ []) :
    ∀ d, l.getLastD d ∈ l := by
  induction l with
  | nil => exact absurd rfl h
  | cons x rest ih =>
    intro d
    rw [List.getLastD_cons]
    cases hr : rest with
    | nil => simp [List.getLastD]
    | cons y t =>
      subst hr
      exact List.mem_cons_of_mem x (ih (by simp) x)

theorem headD_mem {α : Type} (l : List α) (d : α) (h : l ≠ []) : l.headD d ∈ l := by
  cases l with
  | nil => exact absurd rfl h
  | cons x rest => simp [List.headD]

theorem pyLower_ascii (l : List Nat) (h : ∀ c ∈ l, c < 128) :
    ∀ c ∈ pyLower l, c < 128 := by
  intro c hc
  simp only [pyLower, List.mem_map] at hc
  obtain ⟨x, hx, rfl⟩ := hc
  have := h x hx
  split_ifs <;> omega

theorem pyLower_no_dot (l : List Nat) (h : 46 ∉ l) : 46 ∉ pyLower l := by
  intro hc
  simp only [pyLower, List.mem_map] at hc
  obtain ⟨x, hx, hfx⟩ := hc
  by_cases hu : 65 ≤ x ∧ x ≤ 90
  · rw [if_pos hu] at hfx; omega
  · rw [if_neg hu] at hfx; exact h (hfx ▸ hx)

theorem pyLower_ne_of_upper (l : List Nat) (c : Nat) (hc : c ∈ l)
    (h1 : 65 ≤ c) (h2 : c ≤ 90) : pyLower l ≠ l := by
  intro heq
  obtain ⟨i, hi, hgi⟩ := List.getElem_of_mem hc
  have hcongr := congrArg (fun t => t[i]?) heq
  simp only [pyLower, List.getElem?_map] at hcongr
  rw [List.getElem?_eq_getElem hi, hgi] at hcongr
  simp only [Option.map_some'] at hcongr
  rw [if_pos ⟨h1, h2⟩] at hcongr
  simp at hcongr

theorem restored_name_file_token (m : Int) (K fname : List Nat)
    (hK : ∀ c ∈ K, c < 128) (hf : ∀ c ∈ fname, c < 128) :
    Unmount.restored_name (Mount.file_token K (encoded_mdate m) fname)
      = some ((pySplit 46 fname).headD []
          ++ 46 :: pyLower ((pySplit 46 fname).getLastD [])) := by
  have hlastMem : (pySplit 46 fname).getLastD [] ∈ pySplit 46 fname :=
    getLastD_mem _ (pySplit_ne_nil 46 fname) []
  have hheadMem : (pySplit 46 fname).headD [] ∈ pySplit 46 fname :=
    headD_mem _ [] (pySplit_ne_nil 46 fname)
  have hext : ∀ c ∈ pyLower ((pySplit 46 fname).getLastD []), c < 128 :=
    pyLower_ascii _ (fun c hc => hf c (pySplit_mem_mem 46 fname _ hlastMem c hc))
  have hnm : ∀ c ∈ (pySplit 46 fname).headD [], c < 128 :=
    fun c hc => hf c (pySplit_mem_mem 46 fname _ hheadMem c hc)
  unfold Unmount.restored_name Mount.file_token Mount.extension
  rw [decode_encode_token K _ _ _ true (encoded_mdate_ascii m) hK hext
    (fun s hs => by
      rw [Option.some.injEq] at hs
      subst hs
      exact hnm)]
  rfl

theorem restored_name_ne (fname : List Nat)
    (hcase : (∃ c ∈ (pySplit 46 fname).getLastD [], 65 ≤ c ∧ c ≤ 90)
      ∨ 46 ∉ fname) :
    (pySplit 46 fname).headD []
      ++ 46 :: pyLower ((pySplit 46 fname).getLastD []) ≠ fname := by
  intro heq
  rcases hcase with ⟨c, hc, h1, h2⟩ | hnd
  · have hHnd : 46 ∉ (pySplit 46 fname).headD [] :=
      pySplit_segments_no_sep 46 fname _ (headD_mem _ [] (pySplit_ne_nil 46 fname))
    have hLnd : 46 ∉ (pySplit 46 fname).getLastD [] :=
      pySplit_segments_no_sep 46 fname _ (getLastD_mem _ (pySplit_ne_nil 46 fname) [])
    have hPLnd : 46 ∉ pyLower ((pySplit 46 fname).getLastD []) :=
      pyLower_no_dot _ hLnd
    have hlast := pySplit_getLast_append 46 ((pySplit 46 fname).headD [])
      (pyLower ((pySplit 46 fname).getLastD [])) hPLnd
    rw [heq] at hlast
    exact pyLower_ne_of_upper _ c hc h1 h2 hlast.symm
  · apply hnd
    rw [← heq]
    simp

theorem hexToBytes_isSome (ct : List Nat) : ct.length % 2 = 0 →
    (∀ c ∈ ct, (hexDigitVal c).isSome) → (hexToBytes ct).isSome := by
  induction ct using hexToBytes.induct with
  | case1 => intro _ _; simp [hexToBytes]
  | case2 c => intro h1 _; simp at h1
  | case3 c1 c2 rest h l bs hrest hv2 hv1 ih =>
    intro _ _
    simp [hexToBytes, hv1, hv2, hrest]
  | case4 c1 c2 rest hfail ih =>
    intro h1 h2
    exfalso
    have hv1 := h2 c1 (by simp)
    have hv2 := h2 c2 (by simp)
    have hr := ih (by simp at h1; omega) (fun c hc => h2 c (by simp [hc]))
    rcases e1 : hexDigitVal c1 with _ | v1
    · rw [e1] at hv1; simp at hv1
    rcases e2 : hexDigitVal c2 with _ | v2
    · rw [e2] at hv2; simp at hv2
    rcases e3 : hexToBytes rest with _ | bs
    · rw [e3] at hr; simp at hr
    exact hfail v1 v2 bs e1 e2 e3

/-! The claims. -/

/-- C1: for every integer timestamp `t`, every key segment, extension and
optional embedded name drawn from the supported (single-byte, ASCII)
alphabet, decoding the token built by mount's encode chain returns exactly
the original `(hexTime, extension, name)` triple, with the name empty when no
name field was embedded, whatever the `use_index_filename` flag. -/
theorem claim1_token_roundtrip (t : Int) (K ext : List Nat)
    (nm : Option (List Nat)) (ui : Bool)
    (hK : ∀ c ∈ K, c < 128) (hext : ∀ c ∈ ext, c < 128)
    (hnm : ∀ s, nm = some s → ∀ c ∈ s, c < 128) :
    decode_file (encode_token K (encoded_mdate t) ext nm) ui
      = some (encoded_mdate t, ext, nm.getD []) :=
  decode_encode_token K _ ext nm ui (encoded_mdate_ascii t) hK hext hnm

/-- Witness for C1 at timestamp 1700000000, key segment `"ab"`, extension
`"txt"`, embedded name `"rep"`. -/
theorem claim1_token_roundtrip_witness :
    decode_file
        (encode_token [97, 98] (encoded_mdate 1700000000) [116, 120, 116]
          (some [114, 101, 112])) false
      = some (encoded_mdate 1700000000, [116, 120, 116], [114, 101, 112]) :=
  claim1_token_roundtrip 1700000000 [97, 98] [116, 120, 116]
    (some [114, 101, 112]) false (by decide) (by decide)
    (fun s hs => by
      rw [Option.some.injEq] at hs
      subst hs
      decide)

/-- C2 (code bug witness): with the suffix allow-list empty — the state with
no `--include` option — mounting a directory holding the single file
`report.txt` produces an empty walker output: the file is dropped, because
Python's `str.endswith` on an empty tuple returns `False` and the `continue`
fires for every file. The spec's scenario requires the file to be kept and
renamed. -/
theorem claim2_empty_allowlist_drops_file :
    Mount.get_files [] [] false false [114]
      [FSEntry.file [114, 101, 112, 111, 114, 116, 46, 116, 120, 116] 1700000000]
      = [] := by
  rw [Mount.get_files]
  simp [List.attach, List.attachWith, List.pmap, Mount.separate_file_and_directory,
    endswithAny, sortByKeyDesc]

/-- C3 (code bug witness): the entry sequence unmount's `change_file_names`
actually consumes is the raw `get_files` output — `__main__` discards the
`separate_file_and_directory` result — and on the tree
`r\{a\{f}, g}` that sequence is file `f`, then directory `a`, then file `g`:
the directory at index 1 precedes the file at index 2, violating
files-before-directories. -/
theorem claim3_unmount_consumes_dir_before_file :
    Unmount.get_files [] true [114]
        [FSEntry.dir [97] 0 [FSEntry.file [102] 0], FSEntry.file [103] 0]
      = [Unmount.DirEntry.mk [114, 92, 97, 92, 102] [102] false,
         Unmount.DirEntry.mk [114, 92, 97] [97] true,
         Unmount.DirEntry.mk [114, 92, 103] [103] false] := by
  simp [Unmount.get_files, joinPath]

/-- C4: the cipher is an involution at the byte level: for every key string
and every byte sequence, decrypting the encryption of the bytes returns
exactly those bytes, the keystream repeating cyclically past the 32-byte
SHA-256 digest. -/
theorem claim4_cipher_involution (key data : List Nat)
    (hd : ∀ b ∈ data, b < 256) :
    decrypt key (encryptBytes key data) = some data :=
  decrypt_encryptBytes key data hd

/-- Witness for C4 with a 40-byte data block, longer than the 32-byte digest,
so the cyclic keystream reuse is exercised. -/
theorem claim4_cipher_involution_witness :
    decrypt [107, 101, 121] (encryptBytes [107, 101, 121] (List.replicate 40 65))
      = some (List.replicate 40 65) :=
  claim4_cipher_involution [107, 101, 121] (List.replicate 40 65) (by decide)

/-- C5 (code bug witness): on the tree `r\{a, b\{c}}` the sequence unmount's
orchestrator consumes (the raw walker output, the separated list being
discarded by `__main__`) lists directory `a` (path length 3) before the
deeper directory `c` (path length 5): directories are not ordered longer path
first. The first half of the claim — no directory before its own descendant —
does hold on this sequence, so only the ordering-among-directories clause is
violated. -/
theorem claim5_unmount_longer_path_after_shorter :
    Unmount.get_files [] true [114]
        [FSEntry.dir [97] 0 [], FSEntry.dir [98] 0 [FSEntry.dir [99] 0 []]]
      = [Unmount.DirEntry.mk [114, 92, 97] [97] true,
         Unmount.DirEntry.mk [114, 92, 98, 92, 99] [99] true,
         Unmount.DirEntry.mk [114, 92, 98] [98] true] := by
  simp [Unmount.get_files, joinPath]

/-- C6: the unmount loop characterization: as long as every name decodes, the
processed prefix is exactly the longest prefix whose metadata writes succeed,
each of its entries is renamed or reported-and-skipped according to its
rename outcome, and the first metadata failure halts everything after it. -/
theorem claim6_unmount_failure_policy (ui : Bool) (es : List Unmount.Entry)
    (h : ∀ e ∈ es, (Unmount.decode_timestamp e.name ui).isSome) :
    Unmount.change_file_names ui es
      = (es.takeWhile (fun e => e.metaOk)).map
          (fun e => if e.renameOk then Unmount.Step.renamed
                    else Unmount.Step.renameFailed)
        ++ (if es.all (fun e => e.metaOk) then []
            else [Unmount.Step.metaHalted]) :=
  change_file_names_spec ui es h

/-- Witness for C6 on three entries with valid token names: the first has a
rename failure only (reported, loop continues), the second has a metadata
failure (the third entry is never processed). -/
theorem claim6_unmount_failure_policy_witness :
    Unmount.change_file_names false
        [Unmount.Entry.mk (encode_token [97, 98] (encoded_mdate 5) [116] none)
           false true false,
         Unmount.Entry.mk (encode_token [97, 98] (encoded_mdate 5) [116] none)
           false false true,
         Unmount.Entry.mk (encode_token [97, 98] (encoded_mdate 5) [116] none)
           false true true]
      = ([Unmount.Entry.mk (encode_token [97, 98] (encoded_mdate 5) [116] none)
            false true false,
          Unmount.Entry.mk (encode_token [97, 98] (encoded_mdate 5) [116] none)
            false false true,
          Unmount.Entry.mk (encode_token [97, 98] (encoded_mdate 5) [116] none)
            false true true].takeWhile (fun e => e.metaOk)).map
          (fun e => if e.renameOk then Unmount.Step.renamed
                    else Unmount.Step.renameFailed)
        ++ (if [Unmount.Entry.mk (encode_token [97, 98] (encoded_mdate 5) [116] none)
                  false true false,
                Unmount.Entry.mk (encode_token [97, 98] (encoded_mdate 5) [116] none)
                  false false true,
                Unmount.Entry.mk (encode_token [97, 98] (encoded_mdate 5) [116] none)
                  false true true].all (fun e => e.metaOk) then []
            else [Unmount.Step.metaHalted]) :=
  claim6_unmount_failure_policy false _
    (fun e he => by
      rcases List.mem_cons.mp he with rfl | he2
      · rw [show (Unmount.Entry.mk (encode_token [97, 98] (encoded_mdate 5) [116] none)
            false true false).name = encode_token [97, 98] (encoded_mdate 5) [116] none
            from rfl,
          decode_timestamp_token 5 [97, 98] [116] false (by decide) (by decide)]
        rfl
      · rcases List.mem_cons.mp he2 with rfl | he3
        · rw [show (Unmount.Entry.mk (encode_token [97, 98] (encoded_mdate 5) [116] none)
              false false true).name = encode_token [97, 98] (encoded_mdate 5) [116] none
              from rfl,
            decode_timestamp_token 5 [97, 98] [116] false (by decide) (by decide)]
          rfl
        · rcases List.mem_cons.mp he3 with rfl | he4
          · rw [show (Unmount.Entry.mk (encode_token [97, 98] (encoded_mdate 5) [116] none)
                false true true).name = encode_token [97, 98] (encoded_mdate 5) [116] none
                from rfl,
              decode_timestamp_token 5 [97, 98] [116] false (by decide) (by decide)]
            rfl
          · simp at he4)

/-- C7: the timestamp mount stores for an entry is the ceiling of its
`st_mtime` to whole seconds, hex-encoded from its decimal string, and
unmount's hex-decode and integer parse of that stored field recovers exactly
the ceiling value — the timestamp then written back before the rename. -/
theorem claim7_mtime_ceiling_roundtrip (path name : List Nat) (q : ℚ)
    (is_dir : Bool) :
    (Mount.encode_file path name q is_dir).mtime = encoded_mdate ⌈q⌉
      ∧ restore_mtime ((Mount.encode_file path name q is_dir).mtime)
          = some ⌈q⌉ :=
  ⟨rfl, restore_mtime_encoded ⌈q⌉⟩

/-- C8 counterexample: `decrypt` is not total on arbitrary ciphertext
strings: on `"zz"`, which is not hexadecimal, `bytearray.fromhex` raises, so
the call fails (returns `none` in the model) instead of producing a
plaintext. -/
theorem claim8_decrypt_nonhex_counterexample :
    decrypt [107] [122, 122] = none := by rfl

/-- C8 (amended): `encrypt` is total, and `decrypt` returns a result for
every key and every even-length string of hexadecimal digits — in particular
for any ciphertext produced by `encrypt` under any (also mismatched) key —
while non-hex ciphertext input makes `decrypt` raise. -/
theorem claim8_decrypt_total_on_hex (key ct : List Nat)
    (h : ct.length % 2 = 0 ∧ ∀ c ∈ ct, (hexDigitVal c).isSome) :
    (decrypt key ct).isSome := by
  unfold decrypt
  rcases he : hexToBytes ct with _ | bs
  · have := hexToBytes_isSome ct h.1 h.2
    rw [he] at this
    simp at this
  · simp

/-- Witness for C8 (amended) on the hex string `"66"` with key `"k"`. -/
theorem claim8_decrypt_total_on_hex_witness :
    (decrypt [107] [54, 54]).isSome :=
  claim8_decrypt_total_on_hex [107] [54, 54] (by decide)

/-- C9: for every key and plaintext (over code points Python strings can
hold), the `encrypt` output is exactly twice as long as the UTF-8 encoding of
the plaintext and consists only of lowercase hexadecimal digit characters, so
it never contains `-` (code point 45) — which is what makes splitting a token
on `-` unambiguous. -/
theorem claim9_encrypt_emits_hex (key plaintext : List Nat)
    (hp : ∀ c ∈ plaintext, c < 1114112) :
    (encrypt key plaintext).length = 2 * (utf8Encode plaintext).length
      ∧ ∀ c ∈ encrypt key plaintext,
          ((48 ≤ c ∧ c ≤ 57) ∨ (97 ≤ c ∧ c ≤ 102)) ∧ c ≠ 45 :=
  ⟨encrypt_length key plaintext,
   fun c hc =>
     ⟨encrypt_chars key plaintext hp c hc,
      by rcases encrypt_chars key plaintext hp c hc with h | h <;> omega⟩⟩

/-- Witness for C9 with key `"k"` and plaintext `"hi"`. -/
theorem claim9_encrypt_emits_hex_witness :
    (encrypt [107] [104, 105]).length = 2 * (utf8Encode [104, 105]).length
      ∧ ∀ c ∈ encrypt [107] [104, 105],
          ((48 ≤ c ∧ c ≤ 57) ∨ (97 ≤ c ∧ c ≤ 102)) ∧ c ≠ 45 :=
  claim9_encrypt_emits_hex [107] [104, 105] (by decide)

/-- C10: mount derives a file's extension as the last dot-separated segment
of the name, lowercased — the whole name lowercased when it has no dot — and
consequently the name unmount restores (decoded embedded base name, dot,
decoded extension, under `--use_index`) is never byte-identical to an
original name whose extension contains an uppercase ASCII letter or which
contains no dot. -/
theorem claim10_extension_lowercased (t : Int) (K fname : List Nat)
    (hK : ∀ c ∈ K, c < 128) (hf : ∀ c ∈ fname, c < 128)
    (hbad : (∃ c ∈ (pySplit 46 fname).getLastD [], 65 ≤ c ∧ c ≤ 90)
      ∨ 46 ∉ fname) :
    Mount.extension fname = pyLower ((pySplit 46 fname).getLastD [])
      ∧ (46 ∉ fname → Mount.extension fname = pyLower fname)
      ∧ ∀ r, Unmount.restored_name (Mount.file_token K (encoded_mdate t) fname)
          = some r → r ≠ fname := by
  refine ⟨rfl, ?_, ?_⟩
  · intro hnd
    unfold Mount.extension
    rw [pySplit_no_sep 46 fname hnd]
    rfl
  · intro r hr
    rw [restored_name_file_token t K fname hK hf, Option.some.injEq] at hr
    subst hr
    exact restored_name_ne fname hbad

/-- Witness for C10 on the name `"REPORT.TXT"` (uppercase extension), key
segment `"k"`, timestamp 5. -/
theorem claim10_extension_lowercased_witness :
    Mount.extension [82, 69, 80, 79, 82, 84, 46, 84, 88, 84]
        = pyLower ((pySplit 46 [82, 69, 80, 79, 82, 84, 46, 84, 88, 84]).getLastD [])
      ∧ (46 ∉ [82, 69, 80, 79, 82, 84, 46, 84, 88, 84] →
          Mount.extension [82, 69, 80, 79, 82, 84, 46, 84, 88, 84]
            = pyLower [82, 69, 80, 79, 82, 84, 46, 84, 88, 84])
      ∧ ∀ r, Unmount.restored_name
            (Mount.file_token [107] (encoded_mdate 5)
              [82, 69, 80, 79, 82, 84, 46, 84, 88, 84])
          = some r → r ≠ [82, 69, 80, 79, 82, 84, 46, 84, 88, 84] :=
  claim10_extension_lowercased 5 [107] [82, 69, 80, 79, 82, 84, 46, 84, 88, 84]
    (by decide) (by decide) (by decide)
